import Mathlib

/-!
Verification of the DDON-translation utility scripts.

Part 1 embeds `Tools/Duplicate remover.py`: global duplicate analysis over a
collection of CSV files, two-stage resolution (non-empty translation wins,
then adjacent-context tie-break), and in-place rewriting with marked rows
removed.

Part 2 embeds `Tools/Tag Fixer.py`: repair of markup tokens broken across
line boundaries in the translation cell.
-/

/-- Strip leading whitespace characters from a character list. -/
def lstripChars (l : List Char) : List Char := l.dropWhile Char.isWhitespace

/-- Strip trailing whitespace characters from a character list. -/
def rstripChars (l : List Char) : List Char :=
  (l.reverse.dropWhile Char.isWhitespace).reverse

/-- Python `str.strip()`: remove leading and trailing whitespace. -/
def stripChars (l : List Char) : List Char := rstripChars (lstripChars l)

/-- Python `str.strip()` on a string. -/
def pyStrip (s : String) : String := String.mk (stripChars s.data)

namespace DupRemover

/-- A CSV row: an ordered list of cell strings. -/
abbrev Row := List String

/-- The in-memory archive built by `main`: file path paired with its rows,
in load order (models the Python dict `file_data`). -/
abbrev FileData := List (String × List Row)

/-- The Python dict `file_data` is keyed by file path, so keys are
pairwise distinct. -/
def keysNodup (fd : FileData) : Prop := (fd.map Prod.fst).Nodup

/-- `file_data[f]`: the rows of file `f` (empty list if absent; in the
script the lookup is always performed with a present key). -/
def fileRows (fd : FileData) (f : String) : List Row :=
  match fd.find? (fun p => p.1 == f) with
  | some p => p.2
  | none => []

/-- `duplicate_key(row)`: tuple of every column except the fourth
(index 3), each stripped of surrounding whitespace. -/
def duplicate_key (row : Row) : List String :=
  ((List.range row.length).filter (fun i => decide (i ≠ 3))).map
    (fun i => pyStrip (row.getD i ""))

/-- `compute_context_score(file_rows, index, candidate_val)`: +1 if the
previous row has more than 6 columns and its stripped seventh column equals
`candidate_val`, +1 likewise for the next row; missing neighbors are
ignored. -/
def compute_context_score (file_rows : List Row) (index : Nat)
    (candidate_val : String) : Nat :=
  (if 1 ≤ index then
    match file_rows.get? (index - 1) with
    | some prev =>
        if 6 < prev.length ∧ pyStrip (prev.getD 6 "") = candidate_val then 1 else 0
    | none => 0
  else 0) +
  (if index + 1 < file_rows.length then
    match file_rows.get? (index + 1) with
    | some nxt =>
        if 6 < nxt.length ∧ pyStrip (nxt.getD 6 "") = candidate_val then 1 else 0
    | none => 0
  else 0)

/-- A candidate entry exactly as built by `analyze_duplicates`. -/
structure Candidate where
  file : String
  row_index : Nat
  row : Row
  col4 : String
  col7 : String
deriving DecidableEq

/-- The candidate dictionary literal from `analyze_duplicates`. -/
def mkCandidate (f : String) (i : Nat) (row : Row) : Candidate :=
  { file := f, row_index := i, row := row
    col4 := if 3 < row.length then pyStrip (row.getD 3 "") else ""
    col7 := if 6 < row.length then pyStrip (row.getD 6 "") else "" }

/-- The per-file enumeration loop of `analyze_duplicates`: rows with fewer
than 7 columns are skipped (`if len(row) < 7: continue`). -/
def candAux (f : String) : Nat → List Row → List Candidate
  | _, [] => []
  | i, r :: rs =>
      if 7 ≤ r.length then mkCandidate f i r :: candAux f (i + 1) rs
      else candAux f (i + 1) rs

/-- All candidates of the archive in file traversal order. -/
def allCandidates (fd : FileData) : List Candidate :=
  (fd.map (fun p => candAux p.1 0 p.2)).flatten

/-- `dup_dict[k]`: the candidates with key `k` in traversal order, as
accumulated by the repeated `setdefault(key, []).append(candidate)`. -/
def groupOf (fd : FileData) (k : List String) : List Candidate :=
  (allCandidates fd).filter (fun c => duplicate_key c.row == k)

/-- First-occurrence deduplication: a Python dict iterates each key once. -/
def dedupKeys : List (List String) → List (List String)
  | [] => []
  | k :: rest => k :: (dedupKeys rest).filter (fun k2 => !(k2 == k))

/-- The keys of `dup_dict`, each exactly once. -/
def keyList (fd : FileData) : List (List String) :=
  dedupKeys ((allCandidates fd).map (fun c => duplicate_key c.row))

/-- The context score of a candidate, as computed inside `resolve_group`
(stage 2). -/
def candScore (fd : FileData) (c : Candidate) : Nat :=
  compute_context_score (fileRows fd c.file) c.row_index c.col7

/-- One iteration of the stage-2 loop of `resolve_group`:
`if score > best_score or (score == best_score and (best is None or
i < best["row_index"])): best_score, best = score, c`. -/
def tbStep (fd : FileData) (acc : Option Candidate × Int) (c : Candidate) :
    Option Candidate × Int :=
  let score : Int := (candScore fd c : Int)
  let noneOrSmaller : Bool :=
    match acc.1 with
    | none => true
    | some b => decide (c.row_index < b.row_index)
  if acc.2 < score ∨ (score = acc.2 ∧ noneOrSmaller = true) then (some c, score)
  else acc

/-- The full stage-2 loop, starting from `best = None`, `best_score = -1`. -/
def tbFold (fd : FileData) (l : List Candidate) : Option Candidate × Int :=
  l.foldl (tbStep fd) (none, -1)

/-- `non_empty = [c for c in group if c["col4"] != ""]`. -/
def nonEmptyOf (group : List Candidate) : List Candidate :=
  group.filter (fun c => !(c.col4 == ""))

/-- `group_to_tiebreak`: the non-empty candidates if any exist, otherwise
the whole group. -/
def survivors (group : List Candidate) : List Candidate :=
  if nonEmptyOf group = [] then group else nonEmptyOf group

/-- One conflict entry of the mismatch log: for each candidate with
non-empty `col4`, its file, 1-based row number and `col4` value — the
content of the formatted block appended to `mismatch_log`. -/
abbrev MismatchEntry := List (String × Nat × String)

/-- `resolve_group(group, file_data, mismatch_log)`: returns the kept
candidate, the `(file, row_index)` pairs to delete, and the mismatch
entries appended during the call. -/
def resolve_group (group : List Candidate) (fd : FileData) :
    Option Candidate × List (String × Nat) × List MismatchEntry :=
  let ne := nonEmptyOf group
  let mismatches : List MismatchEntry :=
    if ne ≠ [] ∧ 1 < (ne.map Candidate.col4).dedup.length then
      [ne.map (fun c => (c.file, c.row_index + 1, c.col4))]
    else []
  let best := (tbFold fd (survivors group)).1
  let toDelete :=
    (group.filter (fun c => decide (¬ some c = best))).map
      (fun c => (c.file, c.row_index))
  (best, toDelete, mismatches)

/-- The set of `(file, row_index)` pairs accumulated by
`process_all_duplicates` (groups of size > 1 only). -/
def deletionList (fd : FileData) : List (String × Nat) :=
  ((keyList fd).map (fun k =>
    if 1 < (groupOf fd k).length then (resolve_group (groupOf fd k) fd).2.1
    else [])).flatten

/-- The mismatch log accumulated by `process_all_duplicates`. -/
def mismatchLog (fd : FileData) : List MismatchEntry :=
  ((keyList fd).map (fun k =>
    if 1 < (groupOf fd k).length then (resolve_group (groupOf fd k) fd).2.2
    else [])).flatten

/-- `process_all_duplicates(file_data)`. -/
def process_all_duplicates (fd : FileData) :
    List (String × Nat) × List MismatchEntry :=
  (deletionList fd, mismatchLog fd)

/-- One `del rows[idx]` step from `main`, guarded by `idx < len(rows)`. -/
def eraseIdxG (rows : List Row) (idx : Nat) : List Row :=
  if idx < rows.length then rows.eraseIdx idx else rows

/-- The deletion loop of `main`: indices are processed in the given
(descending) order. -/
def applyDeletionsDesc (rows : List Row) (idxs : List Nat) : List Row :=
  idxs.foldl eraseIdxG rows

/-- Insertion step of a descending sort. -/
def insertDesc (x : Nat) : List Nat → List Nat
  | [] => [x]
  | y :: ys => if y ≤ x then x :: y :: ys else y :: insertDesc x ys

/-- `sorted(l, reverse=True)`. -/
def sortDesc (l : List Nat) : List Nat := l.foldr insertDesc []

/-- `indices_to_delete` for one file, sorted descending. -/
def indicesToDelete (dels : List (String × Nat)) (f : String) : List Nat :=
  sortDesc ((dels.filter (fun p => p.1 == f)).map Prod.snd)

/-- The full analyze/resolve/delete pass of `main`: every file is rewritten
with its marked rows removed (a file with no marked rows is left as is,
which the fold also yields on an empty index list). -/
def rewriteFiles (fd : FileData) : FileData :=
  fd.map (fun p => (p.1, applyDeletionsDesc p.2 (indicesToDelete (deletionList fd) p.1)))

/-- Positional filter: keep the elements whose (offset) index satisfies
`P`.  Specification device used to characterise the deletion loop. -/
def keepIdxAux (P : Nat → Bool) : Nat → List Row → List Row
  | _, [] => []
  | n, r :: rs =>
      if P n then r :: keepIdxAux P (n + 1) rs else keepIdxAux P (n + 1) rs

/-- Positional filter starting at index 0. -/
def keepIdx (P : Nat → Bool) (rows : List Row) : List Row := keepIdxAux P 0 rows

/-- The claim's hypothesis "whitespace-trimmed values identical in every
column except the translation column (index 3)". -/
def sameExceptTranslation (r1 r2 : Row) : Prop :=
  r1.length = r2.length ∧
    ∀ j, j < r1.length → j ≠ 3 → pyStrip (r1.getD j "") = pyStrip (r2.getD j "")

instance (r1 r2 : Row) : Decidable (sameExceptTranslation r1 r2) := by
  unfold sameExceptTranslation; infer_instance

/-- The context score exactly as the specification words it: +1 if the
immediately preceding row exists and its trimmed column-6 value equals the
candidate's value, +1 likewise for the immediately following row, a missing
neighbor (or a neighbor without a column 6) contributing 0. -/
def contextScoreSpec (rows : List Row) (i : Nat) (v : String) : Nat :=
  (if 0 < i then
    (match rows.get? (i - 1) with
     | some prev =>
         (match prev.get? 6 with
          | some s => if pyStrip s = v then 1 else 0
          | none => 0)
     | none => 0)
  else 0) +
  (match rows.get? (i + 1) with
   | some nxt =>
       (match nxt.get? 6 with
        | some s => if pyStrip s = v then 1 else 0
        | none => 0)
   | none => 0)

/-! ### Lemmas about the stage-2 tie-break loop -/

lemma tbStep_none_start (fd : FileData) (c : Candidate) :
    tbStep fd (none, -1) c = (some c, (candScore fd c : Int)) := by
  simp only [tbStep]
  rw [if_pos]
  left
  omega

lemma tbStep_some (fd : FileData) (b0 c : Candidate) :
    tbStep fd (some b0, (candScore fd b0 : Int)) c =
      if candScore fd b0 < candScore fd c ∨
          (candScore fd c = candScore fd b0 ∧ c.row_index < b0.row_index) then
        (some c, (candScore fd c : Int))
      else (some b0, (candScore fd b0 : Int)) := by
  simp only [tbStep]
  by_cases h : candScore fd b0 < candScore fd c ∨
      (candScore fd c = candScore fd b0 ∧ c.row_index < b0.row_index)
  · rw [if_pos h, if_pos]
    rcases h with h | ⟨h1, h2⟩
    · left; omega
    · right
      refine ⟨by omega, ?_⟩
      simp [h2]
  · rw [if_neg h, if_neg]
    push_neg at h
    intro hcon
    rcases hcon with hlt | ⟨heq, hdec⟩
    · omega
    · have h1 : candScore fd c = candScore fd b0 := by omega
      have h2 := h.2 h1
      simp only [decide_eq_true_eq] at hdec
      omega

lemma tbFold_from_some (fd : FileData) :
    ∀ (l : List Candidate) (b0 : Candidate),
      ∃ b, l.foldl (tbStep fd) (some b0, (candScore fd b0 : Int)) =
              (some b, (candScore fd b : Int)) ∧
        (b ∈ l ∨ b = b0) ∧
        (∀ c, c ∈ l → candScore fd c ≤ candScore fd b) ∧
        candScore fd b0 ≤ candScore fd b ∧
        (∀ c, c ∈ l → candScore fd c = candScore fd b → b.row_index ≤ c.row_index) ∧
        (candScore fd b0 = candScore fd b → b.row_index ≤ b0.row_index) := by
  intro l
  induction l with
  | nil =>
      intro b0
      exact ⟨b0, rfl, Or.inr rfl, by simp, le_refl _, by simp, fun _ => le_refl _⟩
  | cons c rest ih =>
      intro b0
      rw [List.foldl_cons, tbStep_some]
      by_cases hcond : candScore fd b0 < candScore fd c ∨
          (candScore fd c = candScore fd b0 ∧ c.row_index < b0.row_index)
      · rw [if_pos hcond]
        obtain ⟨b, hfold, hmem, hub, hcle, htie, htiec⟩ := ih c
        refine ⟨b, hfold, ?_, ?_, ?_, ?_, ?_⟩
        · rcases hmem with h | h
          · exact Or.inl (List.mem_cons_of_mem _ h)
          · exact Or.inl (h ▸ List.mem_cons_self _ _)
        · intro x hx
          rcases List.mem_cons.mp hx with rfl | hx
          · exact hcle
          · exact hub x hx
        · rcases hcond with h | ⟨h, _⟩
          · omega
          · omega
        · intro x hx hsc
          rcases List.mem_cons.mp hx with rfl | hx
          · exact htiec hsc
          · exact htie x hx hsc
        · intro hsc
          rcases hcond with h | ⟨h, hri⟩
          · omega
          · have := htiec (by omega)
            omega
      · rw [if_neg hcond]
        push_neg at hcond
        obtain ⟨hle, hri⟩ := hcond
        obtain ⟨b, hfold, hmem, hub, hb0le, htie, htieb0⟩ := ih b0
        refine ⟨b, hfold, ?_, ?_, hb0le, ?_, htieb0⟩
        · rcases hmem with h | h
          · exact Or.inl (List.mem_cons_of_mem _ h)
          · exact Or.inr h
        · intro x hx
          rcases List.mem_cons.mp hx with rfl | hx
          · omega
          · exact hub x hx
        · intro x hx hsc
          rcases List.mem_cons.mp hx with rfl | hx
          · have h1 : candScore fd x = candScore fd b0 := by omega
            have h2 := hri h1
            have := htieb0 (by omega)
            omega
          · exact htie x hx hsc

/-- On a nonempty list the tie-break loop returns a member with maximal
context score, earliest row index among the maximal ones. -/
lemma tbFold_spec (fd : FileData) (l : List Candidate) (h : l ≠ []) :
    ∃ b, (tbFold fd l).1 = some b ∧ b ∈ l ∧
      (∀ c, c ∈ l → candScore fd c ≤ candScore fd b) ∧
      (∀ c, c ∈ l → candScore fd c = candScore fd b → b.row_index ≤ c.row_index) := by
  match l with
  | [] => exact absurd rfl h
  | c :: rest =>
      rw [tbFold, List.foldl_cons, tbStep_none_start]
      obtain ⟨b, hfold, hmem, hub, hcle, htie, htiec⟩ := tbFold_from_some fd rest c
      refine ⟨b, by rw [hfold], ?_, ?_, ?_⟩
      · rcases hmem with h | h
        · exact List.mem_cons_of_mem _ h
        · exact h ▸ List.mem_cons_self _ _
      · intro x hx
        rcases List.mem_cons.mp hx with rfl | hx
        · exact hcle
        · exact hub x hx
      · intro x hx hsc
        rcases List.mem_cons.mp hx with rfl | hx
        · exact htiec hsc
        · exact htie x hx hsc

/-! ### Lemmas about `resolve_group` -/

lemma mem_nonEmptyOf {g : List Candidate} {c : Candidate} :
    c ∈ nonEmptyOf g ↔ c ∈ g ∧ c.col4 ≠ "" := by
  simp [nonEmptyOf, List.mem_filter]

lemma survivors_subset {g : List Candidate} {c : Candidate}
    (h : c ∈ survivors g) : c ∈ g := by
  unfold survivors at h
  split at h
  · exact h
  · exact (mem_nonEmptyOf.mp h).1

lemma survivors_ne_nil {g : List Candidate} (h : g ≠ []) :
    survivors g ≠ [] := by
  unfold survivors
  split
  · exact h
  · assumption

lemma resolve_group_fst (g : List Candidate) (fd : FileData) :
    (resolve_group g fd).1 = (tbFold fd (survivors g)).1 := rfl

lemma resolve_group_toDelete (g : List Candidate) (fd : FileData) :
    (resolve_group g fd).2.1 =
      (g.filter (fun c => decide (¬ some c = (tbFold fd (survivors g)).1))).map
        (fun c => (c.file, c.row_index)) := rfl

lemma resolve_group_mismatches (g : List Candidate) (fd : FileData) :
    (resolve_group g fd).2.2 =
      if nonEmptyOf g ≠ [] ∧ 1 < ((nonEmptyOf g).map Candidate.col4).dedup.length
      then [(nonEmptyOf g).map (fun c => (c.file, c.row_index + 1, c.col4))]
      else [] := rfl

/-- The kept candidate of a nonempty group: member of the tie-break set,
maximal context score, minimal row index among the maximal. -/
lemma resolve_group_keeps (fd : FileData) (g : List Candidate) (h : g ≠ []) :
    ∃ b, (resolve_group g fd).1 = some b ∧ b ∈ survivors g ∧
      (∀ c, c ∈ survivors g → candScore fd c ≤ candScore fd b) ∧
      (∀ c, c ∈ survivors g → candScore fd c = candScore fd b →
        b.row_index ≤ c.row_index) := by
  obtain ⟨b, hb, hmem, hub, htie⟩ := tbFold_spec fd (survivors g) (survivors_ne_nil h)
  exact ⟨b, by rw [resolve_group_fst, hb], hmem, hub, htie⟩

lemma mem_toDelete_iff {g : List Candidate} {fd : FileData} {f : String} {i : Nat} :
    (f, i) ∈ (resolve_group g fd).2.1 ↔
      ∃ c, c ∈ g ∧ some c ≠ (resolve_group g fd).1 ∧ c.file = f ∧ c.row_index = i := by
  rw [resolve_group_toDelete]
  simp only [List.mem_map, List.mem_filter, decide_eq_true_eq, Prod.mk.injEq,
    resolve_group_fst]
  constructor
  · rintro ⟨c, ⟨hcg, hcb⟩, hf, hi⟩
    exact ⟨c, hcg, hcb, hf, hi⟩
  · rintro ⟨c, hcg, hcb, hf, hi⟩
    exact ⟨c, ⟨hcg, hcb⟩, hf, hi⟩

lemma one_lt_length_of_two_mem {α : Type} {l : List α} {a b : α}
    (ha : a ∈ l) (hb : b ∈ l) (hab : a ≠ b) : 1 < l.length := by
  match l with
  | [] => cases ha
  | [x] =>
      rw [List.mem_singleton] at ha hb
      exact absurd (ha.trans hb.symm) hab
  | x :: y :: t => simp [Nat.lt_add_one_iff]

lemma one_lt_dedup_length_of_two_mem {α : Type} [DecidableEq α] {l : List α}
    {a b : α} (ha : a ∈ l) (hb : b ∈ l) (hab : a ≠ b) : 1 < l.dedup.length :=
  one_lt_length_of_two_mem (List.mem_dedup.mpr ha) (List.mem_dedup.mpr hb) hab

/-- C2: in a duplicate group where exactly one candidate has a non-empty
(trimmed) translation cell, `resolve_group` keeps that candidate and marks
exactly the other candidates of the group for deletion, whatever the
context scores are. -/
theorem C2_unique_nonempty_translation_wins (fd : FileData) (g : List Candidate)
    (c : Candidate) (hc : c ∈ g) (hne : c.col4 ≠ "")
    (hothers : ∀ c', c' ∈ g → c' ≠ c → c'.col4 = "") :
    (resolve_group g fd).1 = some c ∧
      (resolve_group g fd).2.1 =
        (g.filter (fun c' => decide (¬ c' = c))).map
          (fun c' => (c'.file, c'.row_index)) := by
  have hall : ∀ x, x ∈ nonEmptyOf g → x = c := by
    intro x hx
    obtain ⟨hxg, hxne⟩ := mem_nonEmptyOf.mp hx
    by_contra hxc
    exact hxne (hothers x hxg hxc)
  have hcne : c ∈ nonEmptyOf g := mem_nonEmptyOf.mpr ⟨hc, hne⟩
  have hnenil : nonEmptyOf g ≠ [] := List.ne_nil_of_mem hcne
  have hsurv : survivors g = nonEmptyOf g := by
    unfold survivors
    rw [if_neg hnenil]
  have hfst : (resolve_group g fd).1 = some c := by
    obtain ⟨b, hb, hmem, _, _⟩ := resolve_group_keeps fd g (List.ne_nil_of_mem hc)
    rw [hb, hall b (hsurv ▸ hmem)]
  refine ⟨hfst, ?_⟩
  rw [resolve_group_toDelete, ← resolve_group_fst, hfst]
  congr 1
  apply List.filter_congr
  intro x hx
  simp

/-- C3: the context score is exactly the specification's neighbor formula
(+1 for an existing previous row whose trimmed column 6 equals the
candidate's, +1 likewise for the next row, missing neighbors contributing
0), and the kept candidate of a nonempty group is a member of the
surviving candidate set with maximal score, ties resolved to the smallest
row index — a deterministic function of the inputs. -/
theorem C3_context_score_and_tiebreak :
    (∀ (rows : List Row) (i : Nat) (v : String),
        compute_context_score rows i v = contextScoreSpec rows i v) ∧
    (∀ (fd : FileData) (g : List Candidate), g ≠ [] →
      ∃ b, (resolve_group g fd).1 = some b ∧ b ∈ survivors g ∧
        (∀ c, c ∈ survivors g → candScore fd c ≤ candScore fd b) ∧
        (∀ c, c ∈ survivors g → candScore fd c = candScore fd b →
          b.row_index ≤ c.row_index)) := by
  constructor
  · intro rows i v
    unfold compute_context_score contextScoreSpec
    congr 1
    · rcases Nat.eq_zero_or_pos i with rfl | hi
      · simp
      · rw [if_pos (show 1 ≤ i from hi), if_pos hi]
        cases hp : rows.get? (i - 1) with
        | none => rfl
        | some prev =>
            cases h6 : prev.get? 6 with
            | none =>
                have hlen : prev.length ≤ 6 := by
                  simpa using List.get?_eq_none.mp h6
                dsimp only
                rw [if_neg (fun h => absurd h.1 (by omega)), h6]
            | some s =>
                have hlen : 6 < prev.length := by
                  rcases List.get?_eq_some.mp h6 with ⟨h, _⟩
                  exact h
                have hgd : prev.getD 6 "" = s := by
                  rw [List.getD_eq_getElem?_getD, ← List.get?_eq_getElem?, h6]
                  rfl
                dsimp only
                rw [hgd, h6]
                by_cases hv : pyStrip s = v
                · rw [if_pos ⟨hlen, hv⟩]
                  dsimp only
                  rw [if_pos hv]
                · rw [if_neg (fun h => hv h.2)]
                  dsimp only
                  rw [if_neg hv]
    · by_cases hi : i + 1 < rows.length
      · rw [if_pos hi]
        cases hn : rows.get? (i + 1) with
        | none =>
            have := List.get?_eq_none.mp hn
            omega
        | some nxt =>
            cases h6 : nxt.get? 6 with
            | none =>
                have hlen : nxt.length ≤ 6 := by
                  simpa using List.get?_eq_none.mp h6
                dsimp only
                rw [if_neg (fun h => absurd h.1 (by omega)), h6]
            | some s =>
                have hlen : 6 < nxt.length := by
                  rcases List.get?_eq_some.mp h6 with ⟨h, _⟩
                  exact h
                have hgd : nxt.getD 6 "" = s := by
                  rw [List.getD_eq_getElem?_getD, ← List.get?_eq_getElem?, h6]
                  rfl
                dsimp only
                rw [hgd, h6]
                by_cases hv : pyStrip s = v
                · rw [if_pos ⟨hlen, hv⟩]
                  dsimp only
                  rw [if_pos hv]
                · rw [if_neg (fun h => hv h.2)]
                  dsimp only
                  rw [if_neg hv]
      · rw [if_neg hi, List.get?_eq_none.mpr (by omega)]
  · intro fd g h
    exact resolve_group_keeps fd g h

/-- C4: when two candidates of a group carry different non-empty
translation values, `resolve_group` appends exactly one conflict entry
(listing every non-empty candidate's file, 1-based row number and value)
and still returns a kept candidate chosen by the usual score / earliest
row index tie-break — resolution is not halted. -/
theorem C4_conflict_logged_and_resolution_continues (fd : FileData)
    (g : List Candidate) (c1 c2 : Candidate) (h1 : c1 ∈ g) (h2 : c2 ∈ g)
    (hne1 : c1.col4 ≠ "") (hne2 : c2.col4 ≠ "") (hdiff : c1.col4 ≠ c2.col4) :
    (resolve_group g fd).2.2 =
      [(nonEmptyOf g).map (fun c => (c.file, c.row_index + 1, c.col4))] ∧
    (∃ b, (resolve_group g fd).1 = some b ∧ b ∈ survivors g ∧
      (∀ c, c ∈ survivors g → candScore fd c ≤ candScore fd b) ∧
      (∀ c, c ∈ survivors g → candScore fd c = candScore fd b →
        b.row_index ≤ c.row_index)) := by
  have hm1 : c1 ∈ nonEmptyOf g := mem_nonEmptyOf.mpr ⟨h1, hne1⟩
  have hm2 : c2 ∈ nonEmptyOf g := mem_nonEmptyOf.mpr ⟨h2, hne2⟩
  constructor
  · rw [resolve_group_mismatches, if_pos]
    refine ⟨List.ne_nil_of_mem hm1, ?_⟩
    exact one_lt_dedup_length_of_two_mem
      (List.mem_map_of_mem Candidate.col4 hm1)
      (List.mem_map_of_mem Candidate.col4 hm2) hdiff
  · exact resolve_group_keeps fd g (List.ne_nil_of_mem h1)

/-! ### Structure of the candidate analysis -/

lemma mkCandidate_file (f : String) (i : Nat) (row : Row) :
    (mkCandidate f i row).file = f := rfl

lemma mkCandidate_row_index (f : String) (i : Nat) (row : Row) :
    (mkCandidate f i row).row_index = i := rfl

lemma mkCandidate_row (f : String) (i : Nat) (row : Row) :
    (mkCandidate f i row).row = row := rfl

lemma mem_candAux {f : String} {c : Candidate} :
    ∀ {n : Nat} {rows : List Row},
      c ∈ candAux f n rows ↔
        ∃ i row, rows.get? i = some row ∧ 7 ≤ row.length ∧
          c = mkCandidate f (n + i) row := by
  intro n rows
  induction rows generalizing n with
  | nil => simp [candAux]
  | cons r rs ih =>
      rw [candAux]
      by_cases h7 : 7 ≤ r.length
      · rw [if_pos h7]
        constructor
        · intro h
          rcases List.mem_cons.mp h with rfl | h
          · exact ⟨0, r, rfl, h7, by rw [Nat.add_zero]⟩
          · obtain ⟨i, row, hget, hlen, hc⟩ := ih.mp h
            refine ⟨i + 1, row, by simpa using hget, hlen, ?_⟩
            rw [hc]
            congr 1
            omega
        · rintro ⟨i, row, hget, hlen, hc⟩
          cases i with
          | zero =>
              rw [List.get?_cons_zero] at hget
              cases hget
              rw [Nat.add_zero] at hc
              exact hc ▸ List.mem_cons_self _ _
          | succ j =>
              rw [List.get?_cons_succ] at hget
              refine List.mem_cons_of_mem _ (ih.mpr ⟨j, row, hget, hlen, ?_⟩)
              rw [hc]
              congr 1
              omega
      · rw [if_neg h7, ih]
        constructor
        · rintro ⟨i, row, hget, hlen, hc⟩
          refine ⟨i + 1, row, by simpa using hget, hlen, ?_⟩
          rw [hc]
          congr 1
          omega
        · rintro ⟨i, row, hget, hlen, hc⟩
          cases i with
          | zero =>
              rw [List.get?_cons_zero] at hget
              cases hget
              exact absurd hlen h7
          | succ j =>
              rw [List.get?_cons_succ] at hget
              refine ⟨j, row, hget, hlen, ?_⟩
              rw [hc]
              congr 1
              omega

lemma mem_allCandidates {fd : FileData} {c : Candidate} :
    c ∈ allCandidates fd ↔ ∃ f rows, (f, rows) ∈ fd ∧ c ∈ candAux f 0 rows := by
  constructor
  · intro h
    rw [allCandidates, List.mem_flatten] at h
    obtain ⟨l, hl, hc⟩ := h
    rw [List.mem_map] at hl
    obtain ⟨p, hp, rfl⟩ := hl
    exact ⟨p.1, p.2, hp, hc⟩
  · rintro ⟨f, rows, hmem, hc⟩
    rw [allCandidates, List.mem_flatten]
    exact ⟨candAux f 0 rows, List.mem_map_of_mem _ hmem, hc⟩

lemma fileRows_eq_of_mem {fd : FileData} (hk : keysNodup fd) {f : String}
    {rows : List Row} (h : (f, rows) ∈ fd) : fileRows fd f = rows := by
  induction fd with
  | nil => cases h
  | cons p fd' ih =>
      rw [keysNodup, List.map_cons, List.nodup_cons] at hk
      rcases List.mem_cons.mp h with rfl | h
      · rw [fileRows, List.find?_cons_of_pos _ (by simp)]
      · have hne : p.1 ≠ f := by
          intro hfeq
          exact hk.1 (hfeq ▸ (List.mem_map_of_mem Prod.fst h : (f, rows).1 ∈ _))
        rw [fileRows, List.find?_cons_of_neg _ (by simpa using hne)]
        exact ih hk.2 h

lemma fileRows_get?_some {fd : FileData} {f : String} {i : Nat} {r : Row}
    (h : (fileRows fd f).get? i = some r) :
    ∃ rows, (f, rows) ∈ fd ∧ rows.get? i = some r := by
  rw [fileRows] at h
  cases hf : fd.find? (fun p => p.1 == f) with
  | none => rw [hf] at h; simp at h
  | some p =>
      rw [hf] at h
      have hmem := List.mem_of_find?_eq_some hf
      have hfeq : p.1 = f := by simpa using List.find?_some hf
      refine ⟨p.2, ?_, h⟩
      rw [← hfeq]
      exact hmem

lemma candidate_shape {fd : FileData} (hk : keysNodup fd) {c : Candidate}
    (h : c ∈ allCandidates fd) :
    (fileRows fd c.file).get? c.row_index = some c.row ∧ 7 ≤ c.row.length ∧
      c = mkCandidate c.file c.row_index c.row := by
  obtain ⟨f, rows, hmem, hc⟩ := mem_allCandidates.mp h
  obtain ⟨i, row, hget, hlen, hceq⟩ := mem_candAux.mp hc
  rw [Nat.zero_add] at hceq
  subst hceq
  rw [mkCandidate_file, mkCandidate_row_index, mkCandidate_row,
    fileRows_eq_of_mem hk hmem]
  exact ⟨hget, hlen, rfl⟩

lemma mem_allCandidates_of_pos {fd : FileData} {f : String} {i : Nat} {r : Row}
    (h : (fileRows fd f).get? i = some r) (hlen : 7 ≤ r.length) :
    mkCandidate f i r ∈ allCandidates fd := by
  obtain ⟨rows, hmem, hget⟩ := fileRows_get?_some h
  exact mem_allCandidates.mpr
    ⟨f, rows, hmem, mem_candAux.mpr ⟨i, r, hget, hlen, by rw [Nat.zero_add]⟩⟩

lemma mem_groupOf {fd : FileData} {k : List String} {c : Candidate} :
    c ∈ groupOf fd k ↔ c ∈ allCandidates fd ∧ duplicate_key c.row = k := by
  simp [groupOf, List.mem_filter]

lemma mem_dedupKeys : ∀ {l : List (List String)} {k : List String},
    k ∈ dedupKeys l ↔ k ∈ l := by
  intro l
  induction l with
  | nil => simp [dedupKeys]
  | cons k0 rest ih =>
      intro k
      rw [dedupKeys, List.mem_cons, List.mem_cons]
      by_cases hk : k = k0
      · simp [hk]
      · simp only [hk, false_or]
        rw [List.mem_filter]
        simp [hk, ih]

lemma mem_keyList {fd : FileData} {k : List String} :
    k ∈ keyList fd ↔ ∃ c, c ∈ allCandidates fd ∧ duplicate_key c.row = k := by
  rw [keyList, mem_dedupKeys]
  exact List.mem_map

lemma mem_deletionList {fd : FileData} {f : String} {i : Nat} :
    (f, i) ∈ deletionList fd ↔
      ∃ k, k ∈ keyList fd ∧ 1 < (groupOf fd k).length ∧
        (f, i) ∈ (resolve_group (groupOf fd k) fd).2.1 := by
  rw [deletionList, List.mem_flatten]
  constructor
  · rintro ⟨l, hl, hmem⟩
    rw [List.mem_map] at hl
    obtain ⟨k, hk, rfl⟩ := hl
    by_cases h : 1 < (groupOf fd k).length
    · rw [if_pos h] at hmem
      exact ⟨k, hk, h, hmem⟩
    · rw [if_neg h] at hmem
      cases hmem
  · rintro ⟨k, hk, h, hmem⟩
    refine ⟨if 1 < (groupOf fd k).length then
      (resolve_group (groupOf fd k) fd).2.1 else [], List.mem_map_of_mem _ hk, ?_⟩
    rw [if_pos h]
    exact hmem

/-- Every deleted position is the position of a candidate of a resolved
group that is not the kept one. -/
lemma deletion_source {fd : FileData} {f : String} {i : Nat}
    (h : (f, i) ∈ deletionList fd) :
    ∃ c k, c ∈ groupOf fd k ∧ c.file = f ∧ c.row_index = i ∧
      duplicate_key c.row = k ∧ 1 < (groupOf fd k).length ∧
      some c ≠ (resolve_group (groupOf fd k) fd).1 := by
  obtain ⟨k, _, hlen, hmem⟩ := mem_deletionList.mp h
  obtain ⟨c, hcg, hcb, hf, hi⟩ := mem_toDelete_iff.mp hmem
  exact ⟨c, k, hcg, hf, hi, (mem_groupOf.mp hcg).2, hlen, hcb⟩

/-! ### Survival of the kept candidate -/

/-- Two candidates at the same position are the same candidate. -/
lemma candidate_eq_of_pos {fd : FileData} (hk : keysNodup fd) {c b : Candidate}
    (hc : c ∈ allCandidates fd) (hb : b ∈ allCandidates fd)
    (hf : c.file = b.file) (hi : c.row_index = b.row_index) : c = b := by
  have hcs := candidate_shape hk hc
  have hbs := candidate_shape hk hb
  have h1 := hcs.1
  rw [hf, hi] at h1
  rw [hbs.1] at h1
  have hrow : b.row = c.row := by injection h1
  rw [hcs.2.2, hbs.2.2, hf, hi, hrow]

/-- The kept candidate of a resolved group is never marked for deletion,
in its own group or in any other. -/
lemma kept_not_deleted {fd : FileData} (hk : keysNodup fd) {k : List String}
    {b : Candidate} (hb : (resolve_group (groupOf fd k) fd).1 = some b)
    (hbg : b ∈ groupOf fd k) :
    (b.file, b.row_index) ∉ deletionList fd := by
  intro hdel
  obtain ⟨c, k', hcg, hcf, hci, hck', _, hcb⟩ := deletion_source hdel
  have hceqb : c = b :=
    candidate_eq_of_pos hk (mem_groupOf.mp hcg).1 (mem_groupOf.mp hbg).1 hcf hci
  have hk' : k' = k := by
    rw [← hck', hceqb]
    exact (mem_groupOf.mp hbg).2
  apply hcb
  rw [hceqb, hk', hb]

/-- Duplicate pair exclusion: two distinct positions holding rows of at
least 7 columns with the same duplicate key cannot both escape the
deletion set. -/
lemma two_dups_one_deleted {fd : FileData} (hk : keysNodup fd)
    {f1 f2 : String} {i1 i2 : Nat} {r1 r2 : Row}
    (hp : (f1, i1) ≠ (f2, i2))
    (h1 : (fileRows fd f1).get? i1 = some r1)
    (h2 : (fileRows fd f2).get? i2 = some r2)
    (hl1 : 7 ≤ r1.length) (hl2 : 7 ≤ r2.length)
    (hkey : duplicate_key r1 = duplicate_key r2) :
    (f1, i1) ∈ deletionList fd ∨ (f2, i2) ∈ deletionList fd := by
  have hc1 : mkCandidate f1 i1 r1 ∈ allCandidates fd := mem_allCandidates_of_pos h1 hl1
  have hc2 : mkCandidate f2 i2 r2 ∈ allCandidates fd := mem_allCandidates_of_pos h2 hl2
  have hg1 : mkCandidate f1 i1 r1 ∈ groupOf fd (duplicate_key r1) :=
    mem_groupOf.mpr ⟨hc1, rfl⟩
  have hg2 : mkCandidate f2 i2 r2 ∈ groupOf fd (duplicate_key r1) :=
    mem_groupOf.mpr ⟨hc2, hkey.symm⟩
  have hcne : mkCandidate f1 i1 r1 ≠ mkCandidate f2 i2 r2 := by
    intro he
    apply hp
    have hf := congrArg Candidate.file he
    have hi := congrArg Candidate.row_index he
    rw [mkCandidate_file, mkCandidate_file] at hf
    rw [mkCandidate_row_index, mkCandidate_row_index] at hi
    rw [hf, hi]
  have hglen : 1 < (groupOf fd (duplicate_key r1)).length :=
    one_lt_length_of_two_mem hg1 hg2 hcne
  have hkmem : duplicate_key r1 ∈ keyList fd := mem_keyList.mpr ⟨_, hc1, rfl⟩
  obtain ⟨b, hbfst, _, _, _⟩ :=
    resolve_group_keeps fd (groupOf fd (duplicate_key r1)) (List.ne_nil_of_mem hg1)
  have hone : mkCandidate f1 i1 r1 ≠ b ∨ mkCandidate f2 i2 r2 ≠ b := by
    by_contra hcon
    push_neg at hcon
    exact hcne (hcon.1.trans hcon.2.symm)
  rcases hone with hne | hne
  · left
    refine mem_deletionList.mpr ⟨duplicate_key r1, hkmem, hglen, ?_⟩
    refine mem_toDelete_iff.mpr ⟨mkCandidate f1 i1 r1, hg1, ?_, rfl, rfl⟩
    rw [hbfst]
    intro hcon
    exact hne (by injection hcon)
  · right
    refine mem_deletionList.mpr ⟨duplicate_key r1, hkmem, hglen, ?_⟩
    refine mem_toDelete_iff.mpr ⟨mkCandidate f2 i2 r2, hg2, ?_, rfl, rfl⟩
    rw [hbfst]
    intro hcon
    exact hne (by injection hcon)

/-- A deleted row always leaves behind a surviving row with the same
duplicate key at a different position. -/
lemma deleted_implies_other_survivor {fd : FileData} (hk : keysNodup fd)
    {f : String} {i : Nat} {r : Row} (hr : (fileRows fd f).get? i = some r)
    (hdel : (f, i) ∈ deletionList fd) :
    ∃ f' i' r', (f', i') ≠ (f, i) ∧ (fileRows fd f').get? i' = some r' ∧
      duplicate_key r' = duplicate_key r ∧ (f', i') ∉ deletionList fd := by
  obtain ⟨c, k, hcg, hcf, hci, hck, hglen, hcb⟩ := deletion_source hdel
  have hcs := candidate_shape hk (mem_groupOf.mp hcg).1
  have hrowc : c.row = r := by
    have h1 := hcs.1
    rw [hcf, hci, hr] at h1
    injection h1 with h1
    exact h1.symm
  obtain ⟨b, hbfst, hbmem, _, _⟩ :=
    resolve_group_keeps fd (groupOf fd k) (List.ne_nil_of_mem hcg)
  have hbg : b ∈ groupOf fd k := survivors_subset hbmem
  have hbs := candidate_shape hk (mem_groupOf.mp hbg).1
  refine ⟨b.file, b.row_index, b.row, ?_, hbs.1, ?_, ?_⟩
  · intro he
    have hfe : b.file = f := by
      have := congrArg Prod.fst he
      simpa using this
    have hie : b.row_index = i := by
      have := congrArg Prod.snd he
      simpa using this
    have : b = c := candidate_eq_of_pos hk (mem_groupOf.mp hbg).1
      (mem_groupOf.mp hcg).1 (by rw [hfe, hcf]) (by rw [hie, hci])
    exact hcb (by rw [hbfst, this])
  · rw [← hrowc, hck, (mem_groupOf.mp hbg).2]
  · exact kept_not_deleted hk hbfst hbg

/-- C9: `resolve_group` always keeps a member of a nonempty group; a row
is deleted only if a row with the same duplicate key survives at another
position; and a row of at least 7 columns whose duplicate key is unique in
the archive is never deleted. -/
theorem C9_resolution_always_keeps_one (fd : FileData) (hk : keysNodup fd) :
    (∀ g : List Candidate, g ≠ [] →
      ∃ b, (resolve_group g fd).1 = some b ∧ b ∈ g) ∧
    (∀ f i r, (fileRows fd f).get? i = some r → (f, i) ∈ deletionList fd →
      ∃ f' i' r', (f', i') ≠ (f, i) ∧ (fileRows fd f').get? i' = some r' ∧
        duplicate_key r' = duplicate_key r ∧ (f', i') ∉ deletionList fd) ∧
    (∀ f i r, (fileRows fd f).get? i = some r → 7 ≤ r.length →
      (∀ f' i' r', (fileRows fd f').get? i' = some r' →
        duplicate_key r' = duplicate_key r → (f', i') = (f, i)) →
      (f, i) ∉ deletionList fd) := by
  refine ⟨?_, ?_, ?_⟩
  · intro g hg
    obtain ⟨b, hb, hbmem, _, _⟩ := resolve_group_keeps fd g hg
    exact ⟨b, hb, survivors_subset hbmem⟩
  · intro f i r hr hdel
    exact deleted_implies_other_survivor hk hr hdel
  · intro f i r hr _ huniq hdel
    obtain ⟨f', i', r', hne, hr', hkey, _⟩ :=
      deleted_implies_other_survivor hk hr hdel
    exact hne (huniq f' i' r' hr' hkey)

/-! ### The deletion loop as a positional filter -/

lemma keepIdxAux_all_true (P : Nat → Bool) :
    ∀ (rows : List Row) (n : Nat), (∀ j, n ≤ j → P j = true) →
      keepIdxAux P n rows = rows := by
  intro rows
  induction rows with
  | nil => intro n _; rfl
  | cons r rs ih =>
      intro n h
      simp only [keepIdxAux]
      rw [if_pos (h n le_rfl), ih (n + 1) (fun j hj => h j (by omega))]

lemma keepIdxAux_congr (P Q : Nat → Bool) :
    ∀ (rows : List Row) (n : Nat),
      (∀ j, n ≤ j → j < n + rows.length → P j = Q j) →
      keepIdxAux P n rows = keepIdxAux Q n rows := by
  intro rows
  induction rows with
  | nil => intro n _; rfl
  | cons r rs ih =>
      intro n h
      have hrec : keepIdxAux P (n + 1) rs = keepIdxAux Q (n + 1) rs :=
        ih (n + 1) (fun j hj1 hj2 => h j (by omega) (by simp only [List.length_cons]; omega))
      simp only [keepIdxAux]
      rw [h n le_rfl (by simp only [List.length_cons]; omega), hrec]

lemma keepIdxAux_eraseIdx (Q : Nat → Bool) :
    ∀ (rows : List Row) (n i : Nat), i < rows.length →
      (∀ j, n + i ≤ j → Q j = true) →
      keepIdxAux Q n (rows.eraseIdx i) =
        keepIdxAux (fun j => Q j && decide (j ≠ n + i)) n rows := by
  intro rows
  induction rows with
  | nil => intro n i h; simp at h
  | cons r rs ih =>
      intro n i hi hQ
      cases i with
      | zero =>
          rw [List.eraseIdx_cons_zero]
          rw [keepIdxAux_all_true Q rs n (fun j hj => hQ j (by omega))]
          simp only [keepIdxAux]
          rw [if_neg (by simp)]
          rw [keepIdxAux_all_true _ rs (n + 1)]
          intro j hj
          rw [hQ j (by omega)]
          simp only [Bool.true_and, decide_eq_true_eq]
          omega
      | succ i' =>
          rw [List.eraseIdx_cons_succ]
          simp only [keepIdxAux]
          have hc : (Q n && decide (n ≠ n + (i' + 1))) = Q n := by
            rw [decide_eq_true (show n ≠ n + (i' + 1) by omega), Bool.and_true]
          simp only [hc]
          have hrec := ih (n + 1) i' (by simp only [List.length_cons] at hi; omega)
            (fun j hj => hQ j (by omega))
          have hfe : (fun j => Q j && decide (j ≠ n + 1 + i')) =
              (fun j => Q j && decide (j ≠ n + (i' + 1))) := by
            funext j
            congr 1
            exact decide_eq_decide.mpr (by omega)
          rw [hrec, hfe]

lemma applyDeletionsDesc_nil (idxs : List Nat) :
    applyDeletionsDesc [] idxs = [] := by
  induction idxs with
  | nil => rfl
  | cons i rest ih =>
      simp only [applyDeletionsDesc, List.foldl_cons] at *
      have h0 : eraseIdxG [] i = [] := by
        rw [eraseIdxG, if_neg (by simp)]
      rw [h0]
      exact ih

lemma applyDeletionsDesc_eq_keepIdx :
    ∀ (idxs : List Nat) (rows : List Row), idxs.Pairwise (· > ·) →
      applyDeletionsDesc rows idxs =
        keepIdx (fun i => decide (i ∉ idxs)) rows := by
  intro idxs
  induction idxs with
  | nil =>
      intro rows _
      rw [keepIdx, keepIdxAux_all_true]
      · rfl
      · intro j _
        simp
  | cons i rest ih =>
      intro rows hp
      have hrest : ∀ j ∈ rest, j < i := fun j hj => List.rel_of_pairwise_cons hp hj
      have hprest : rest.Pairwise (· > ·) := (List.pairwise_cons.mp hp).2
      have step : applyDeletionsDesc rows (i :: rest) =
          applyDeletionsDesc (eraseIdxG rows i) rest := by
        simp only [applyDeletionsDesc, List.foldl_cons]
      rw [step, ih (eraseIdxG rows i) hprest, keepIdx, keepIdx]
      by_cases hi : i < rows.length
      · rw [eraseIdxG, if_pos hi]
        have hall : ∀ j, 0 + i ≤ j → decide (j ∉ rest) = true := by
          intro j hj
          exact decide_eq_true (fun hjr => by have := hrest j hjr; omega)
        have herase := keepIdxAux_eraseIdx (fun j => decide (j ∉ rest)) rows 0 i
          (by simpa using hi) hall
        rw [herase]
        apply keepIdxAux_congr
        intro j _ _
        simp only [Nat.zero_add]
        by_cases h1 : j ∈ rest <;> by_cases h2 : j = i <;> simp [h1, h2]
      · rw [eraseIdxG, if_neg hi]
        apply keepIdxAux_congr
        intro j hj1 hj2
        rw [Nat.zero_add] at hj2
        have h2 : j ≠ i := by omega
        by_cases h1 : j ∈ rest <;> simp [h1, h2]

/-! ### Properties of the descending sort -/

lemma mem_insertDesc {x y : Nat} :
    ∀ {l : List Nat}, y ∈ insertDesc x l ↔ y = x ∨ y ∈ l := by
  intro l
  induction l with
  | nil => simp [insertDesc]
  | cons z zs ih =>
      rw [insertDesc]
      by_cases h : z ≤ x
      · rw [if_pos h]
        simp
      · rw [if_neg h]
        simp only [List.mem_cons, ih]
        tauto

lemma insertDesc_perm (x : Nat) :
    ∀ (l : List Nat), (insertDesc x l).Perm (x :: l) := by
  intro l
  induction l with
  | nil => exact List.Perm.refl _
  | cons z zs ih =>
      rw [insertDesc]
      by_cases h : z ≤ x
      · rw [if_pos h]
      · rw [if_neg h]
        exact (ih.cons z).trans (List.Perm.swap x z zs)

lemma insertDesc_pairwise_ge (x : Nat) :
    ∀ (l : List Nat), l.Pairwise (· ≥ ·) → (insertDesc x l).Pairwise (· ≥ ·) := by
  intro l
  induction l with
  | nil => intro _; simp [insertDesc]
  | cons z zs ih =>
      intro hp
      obtain ⟨hz, hzs⟩ := List.pairwise_cons.mp hp
      rw [insertDesc]
      by_cases h : z ≤ x
      · rw [if_pos h]
        refine List.pairwise_cons.mpr ⟨?_, hp⟩
        intro a ha
        rcases List.mem_cons.mp ha with rfl | ha
        · exact h
        · exact le_trans (hz a ha) h
      · rw [if_neg h]
        refine List.pairwise_cons.mpr ⟨?_, ih hzs⟩
        intro a ha
        rcases mem_insertDesc.mp ha with rfl | ha
        · omega
        · exact hz a ha

lemma sortDesc_perm (l : List Nat) : (sortDesc l).Perm l := by
  induction l with
  | nil => exact List.Perm.refl _
  | cons a l ih =>
      exact (insertDesc_perm a (sortDesc l)).trans (ih.cons a)

lemma sortDesc_pairwise_ge (l : List Nat) : (sortDesc l).Pairwise (· ≥ ·) := by
  induction l with
  | nil => simp [sortDesc]
  | cons a l ih => exact insertDesc_pairwise_ge a (sortDesc l) ih

lemma sortDesc_pairwise_gt {l : List Nat} (h : l.Nodup) :
    (sortDesc l).Pairwise (· > ·) := by
  have hnd : (sortDesc l).Nodup := (sortDesc_perm l).nodup_iff.mpr h
  have := (sortDesc_pairwise_ge l).and hnd
  exact this.imp (fun hab => by omega)

lemma mem_sortDesc {l : List Nat} {y : Nat} : y ∈ sortDesc l ↔ y ∈ l :=
  (sortDesc_perm l).mem_iff

/-! ### Rewriting characterised positionally -/

lemma mem_indicesToDelete {dels : List (String × Nat)} {f : String} {i : Nat} :
    i ∈ indicesToDelete dels f ↔ (f, i) ∈ dels := by
  rw [indicesToDelete, mem_sortDesc, List.mem_map]
  constructor
  · rintro ⟨p, hp, rfl⟩
    rw [List.mem_filter] at hp
    have hf : p.1 = f := by simpa using hp.2
    have : p = (f, p.2) := by
      rw [← hf]
    rw [← this]
    exact hp.1
  · intro h
    exact ⟨(f, i), List.mem_filter.mpr ⟨h, by simp⟩, rfl⟩

lemma indicesToDelete_pairwise_gt {dels : List (String × Nat)} (h : dels.Nodup)
    (f : String) : (indicesToDelete dels f).Pairwise (· > ·) := by
  apply sortDesc_pairwise_gt
  apply List.Nodup.map_on
  · intro x hx y hy hxy
    rw [List.mem_filter] at hx hy
    have hfx : x.1 = f := by simpa using hx.2
    have hfy : y.1 = f := by simpa using hy.2
    have : x = (f, x.2) := by rw [← hfx]
    rw [this, hxy, ← hfy]
  · exact h.filter _

lemma fileRows_mapApply (D : List (String × Nat)) :
    ∀ (fd : FileData) (f : String),
      fileRows (fd.map (fun p =>
        (p.1, applyDeletionsDesc p.2 (indicesToDelete D p.1)))) f =
      applyDeletionsDesc (fileRows fd f) (indicesToDelete D f) := by
  intro fd
  induction fd with
  | nil =>
      intro f
      rw [show fileRows ([] : FileData) f = [] from rfl, applyDeletionsDesc_nil]
      rfl
  | cons p fd' ih =>
      intro f
      by_cases hf : p.1 = f
      · rw [List.map_cons, fileRows, List.find?_cons_of_pos _ (by simpa using hf)]
        rw [fileRows, List.find?_cons_of_pos _ (by simpa using hf)]
        rw [hf]
      · rw [List.map_cons, fileRows, List.find?_cons_of_neg _ (by simpa using hf)]
        rw [fileRows, List.find?_cons_of_neg _ (by simpa using hf)]
        exact ih f

lemma fileRows_rewriteFiles (fd : FileData) (f : String) :
    fileRows (rewriteFiles fd) f =
      applyDeletionsDesc (fileRows fd f) (indicesToDelete (deletionList fd) f) := by
  rw [rewriteFiles]
  exact fileRows_mapApply (deletionList fd) fd f

/-! ### The deletion set holds no duplicate positions -/

lemma candAux_facts (f : String) :
    ∀ (rows : List Row) (n : Nat),
      (candAux f n rows).Pairwise (fun a b => a.row_index < b.row_index) ∧
      (∀ c ∈ candAux f n rows, n ≤ c.row_index ∧ c.file = f) := by
  intro rows
  induction rows with
  | nil => intro n; exact ⟨List.Pairwise.nil, by simp [candAux]⟩
  | cons r rs ih =>
      intro n
      obtain ⟨ihp, ihf⟩ := ih (n + 1)
      rw [candAux]
      by_cases h7 : 7 ≤ r.length
      · rw [if_pos h7]
        refine ⟨List.pairwise_cons.mpr ⟨?_, ihp⟩, ?_⟩
        · intro b hb
          have := (ihf b hb).1
          rw [mkCandidate_row_index]
          omega
        · intro c hc
          rcases List.mem_cons.mp hc with rfl | hc
          · exact ⟨by rw [mkCandidate_row_index], by rw [mkCandidate_file]⟩
          · have := ihf c hc
            exact ⟨by omega, this.2⟩
      · rw [if_neg h7]
        refine ⟨ihp, fun c hc => ?_⟩
        have := ihf c hc
        exact ⟨by omega, this.2⟩

lemma candAux_posNodup (f : String) (rows : List Row) (n : Nat) :
    ((candAux f n rows).map (fun c => (c.file, c.row_index))).Nodup := by
  have hp := (candAux_facts f rows n).1
  exact List.pairwise_map.mpr (hp.imp (fun {a b} h => by
    intro he
    have h2 : a.row_index = b.row_index := congrArg Prod.snd he
    omega))

lemma allCandidates_posNodup {fd : FileData} (hk : keysNodup fd) :
    ((allCandidates fd).map (fun c => (c.file, c.row_index))).Nodup := by
  rw [allCandidates, List.map_flatten, List.map_map]
  rw [List.nodup_flatten]
  constructor
  · intro l hl
    rw [List.mem_map] at hl
    obtain ⟨p, _, rfl⟩ := hl
    exact candAux_posNodup p.1 p.2 0
  · rw [List.pairwise_map]
    have hk2 : fd.Pairwise (fun p q => p.1 ≠ q.1) := by
      rw [keysNodup] at hk
      exact List.pairwise_map.mp hk
    refine hk2.imp (fun {p q} hpq => ?_)
    intro a hap haq
    rw [Function.comp_apply, List.mem_map] at hap haq
    obtain ⟨c, hc, rfl⟩ := hap
    obtain ⟨c', hc', he⟩ := haq
    have h1 : c.file = p.1 := ((candAux_facts p.1 p.2 0).2 c hc).2
    have h2 : c'.file = q.1 := ((candAux_facts q.1 q.2 0).2 c' hc').2
    have h3 : c'.file = c.file := congrArg Prod.fst he
    exact hpq (h1 ▸ h3 ▸ h2)

lemma toDelete_posNodup {fd : FileData} (hk : keysNodup fd) (k : List String) :
    ((resolve_group (groupOf fd k) fd).2.1).Nodup := by
  rw [resolve_group_toDelete]
  apply List.Sublist.nodup _ (allCandidates_posNodup hk)
  apply List.Sublist.map
  exact (List.filter_sublist (groupOf fd k)).trans
    (List.filter_sublist (allCandidates fd))

lemma mem_toDelete_key {fd : FileData} (hk : keysNodup fd) {k : List String}
    {f : String} {i : Nat}
    (h : (f, i) ∈ (resolve_group (groupOf fd k) fd).2.1) :
    ∃ c, c ∈ allCandidates fd ∧ c.file = f ∧ c.row_index = i ∧
      duplicate_key c.row = k := by
  obtain ⟨c, hcg, _, hf, hi⟩ := mem_toDelete_iff.mp h
  exact ⟨c, (mem_groupOf.mp hcg).1, hf, hi, (mem_groupOf.mp hcg).2⟩

lemma dedupKeys_nodup : ∀ (l : List (List String)), (dedupKeys l).Nodup := by
  intro l
  induction l with
  | nil => simp [dedupKeys]
  | cons k rest ih =>
      rw [dedupKeys, List.nodup_cons]
      constructor
      · intro hmem
        rw [List.mem_filter] at hmem
        simp at hmem
      · exact ih.filter _

lemma nodup_deletionList {fd : FileData} (hk : keysNodup fd) :
    (deletionList fd).Nodup := by
  rw [deletionList, List.nodup_flatten]
  constructor
  · intro l hl
    rw [List.mem_map] at hl
    obtain ⟨k, _, rfl⟩ := hl
    by_cases h : 1 < (groupOf fd k).length
    · rw [if_pos h]
      exact toDelete_posNodup hk k
    · rw [if_neg h]
      exact List.nodup_nil
  · rw [List.pairwise_map]
    have hknd : (keyList fd).Pairwise (fun k k' => k ≠ k') := dedupKeys_nodup _
    refine hknd.imp (fun {k k'} hne => ?_)
    intro a ha ha'
    obtain ⟨f, i⟩ := a
    by_cases h1 : 1 < (groupOf fd k).length
    · rw [if_pos h1] at ha
      by_cases h2 : 1 < (groupOf fd k').length
      · rw [if_pos h2] at ha'
        obtain ⟨c, hc, hcf, hci, hck⟩ := mem_toDelete_key hk ha
        obtain ⟨c', hc', hcf', hci', hck'⟩ := mem_toDelete_key hk ha'
        have : c = c' := candidate_eq_of_pos hk hc hc'
          (by rw [hcf, hcf']) (by rw [hci, hci'])
        exact hne (by rw [← hck, this, hck'])
      · rw [if_neg h2] at ha'
        cases ha'
    · rw [if_neg h1] at ha
      cases ha

/-- The rewritten archive keeps, per file, exactly the rows whose
position escaped the deletion set, in their original order. -/
lemma fileRows_rewrite_keepIdx {fd : FileData} (hk : keysNodup fd) (f : String) :
    fileRows (rewriteFiles fd) f =
      keepIdx (fun i => decide ((f, i) ∉ deletionList fd)) (fileRows fd f) := by
  rw [fileRows_rewriteFiles,
    applyDeletionsDesc_eq_keepIdx _ _
      (indicesToDelete_pairwise_gt (nodup_deletionList hk) f)]
  rw [keepIdx, keepIdx]
  apply keepIdxAux_congr
  intro j _ _
  exact decide_eq_decide.mpr (not_congr mem_indicesToDelete)

/-! ### Reading positions back through the positional filter -/

lemma keepIdxAux_get?_some (P : Nat → Bool) :
    ∀ (rows : List Row) (n j : Nat) (x : Row),
      (keepIdxAux P n rows).get? j = some x →
      ∃ i, rows.get? i = some x ∧ P (n + i) = true := by
  intro rows
  induction rows with
  | nil => intro n j x h; simp [keepIdxAux] at h
  | cons r rs ih =>
      intro n j x h
      rw [keepIdxAux] at h
      by_cases hP : P n
      · rw [if_pos hP] at h
        cases j with
        | zero =>
            rw [List.get?_cons_zero] at h
            injection h with h
            exact ⟨0, by rw [List.get?_cons_zero, h], by rw [Nat.add_zero]; exact hP⟩
        | succ j' =>
            rw [List.get?_cons_succ] at h
            obtain ⟨i, hget, hp⟩ := ih (n + 1) j' x h
            refine ⟨i + 1, by rw [List.get?_cons_succ]; exact hget, ?_⟩
            have he : n + (i + 1) = n + 1 + i := by omega
            rw [he]
            exact hp
      · rw [if_neg hP] at h
        obtain ⟨i, hget, hp⟩ := ih (n + 1) j x h
        refine ⟨i + 1, by rw [List.get?_cons_succ]; exact hget, ?_⟩
        have he : n + (i + 1) = n + 1 + i := by omega
        rw [he]
        exact hp

lemma keepIdxAux_get?_of_kept (P : Nat → Bool) :
    ∀ (rows : List Row) (n i : Nat) (x : Row),
      rows.get? i = some x → P (n + i) = true →
      ∃ j, j ≤ i ∧ (keepIdxAux P n rows).get? j = some x := by
  intro rows
  induction rows with
  | nil => intro n i x h; simp at h
  | cons r rs ih =>
      intro n i x hget hp
      rw [keepIdxAux]
      cases i with
      | zero =>
          rw [List.get?_cons_zero] at hget
          injection hget with hget
          rw [Nat.add_zero] at hp
          rw [if_pos hp]
          exact ⟨0, le_rfl, by rw [List.get?_cons_zero, hget]⟩
      | succ i' =>
          rw [List.get?_cons_succ] at hget
          have hp' : P (n + 1 + i') = true := by
            have he : n + 1 + i' = n + (i' + 1) := by omega
            rw [he]
            exact hp
          obtain ⟨j, hj, hjget⟩ := ih (n + 1) i' x hget hp'
          by_cases hP : P n
          · rw [if_pos hP]
            exact ⟨j + 1, by omega, by rw [List.get?_cons_succ]; exact hjget⟩
          · rw [if_neg hP]
            exact ⟨j, by omega, hjget⟩

lemma keepIdxAux_two_get? (P : Nat → Bool) :
    ∀ (rows : List Row) (n j1 j2 : Nat) (x1 x2 : Row), j1 < j2 →
      (keepIdxAux P n rows).get? j1 = some x1 →
      (keepIdxAux P n rows).get? j2 = some x2 →
      ∃ i1 i2, i1 < i2 ∧ rows.get? i1 = some x1 ∧ rows.get? i2 = some x2 ∧
        P (n + i1) = true ∧ P (n + i2) = true := by
  intro rows
  induction rows with
  | nil => intro n j1 j2 x1 x2 _ h1 _; simp [keepIdxAux] at h1
  | cons r rs ih =>
      intro n j1 j2 x1 x2 hj h1 h2
      rw [keepIdxAux] at h1 h2
      by_cases hP : P n
      · rw [if_pos hP] at h1 h2
        cases j1 with
        | zero =>
            rw [List.get?_cons_zero] at h1
            injection h1 with h1
            obtain ⟨j2', rfl⟩ : ∃ j2', j2 = j2' + 1 := ⟨j2 - 1, by omega⟩
            rw [List.get?_cons_succ] at h2
            obtain ⟨i2, hget2, hp2⟩ := keepIdxAux_get?_some P rs (n + 1) j2' x2 h2
            refine ⟨0, i2 + 1, by omega, by rw [List.get?_cons_zero, h1],
              by rw [List.get?_cons_succ]; exact hget2, by rw [Nat.add_zero]; exact hP, ?_⟩
            have he : n + (i2 + 1) = n + 1 + i2 := by omega
            rw [he]
            exact hp2
        | succ j1' =>
            obtain ⟨j2', rfl⟩ : ∃ j2', j2 = j2' + 1 := ⟨j2 - 1, by omega⟩
            rw [List.get?_cons_succ] at h1 h2
            obtain ⟨i1, i2, hlt, hg1, hg2, hp1, hp2⟩ :=
              ih (n + 1) j1' j2' x1 x2 (by omega) h1 h2
            refine ⟨i1 + 1, i2 + 1, by omega,
              by rw [List.get?_cons_succ]; exact hg1,
              by rw [List.get?_cons_succ]; exact hg2, ?_, ?_⟩
            · have he : n + (i1 + 1) = n + 1 + i1 := by omega
              rw [he]; exact hp1
            · have he : n + (i2 + 1) = n + 1 + i2 := by omega
              rw [he]; exact hp2
      · rw [if_neg hP] at h1 h2
        obtain ⟨i1, i2, hlt, hg1, hg2, hp1, hp2⟩ := ih (n + 1) j1 j2 x1 x2 hj h1 h2
        refine ⟨i1 + 1, i2 + 1, by omega,
          by rw [List.get?_cons_succ]; exact hg1,
          by rw [List.get?_cons_succ]; exact hg2, ?_, ?_⟩
        · have he : n + (i1 + 1) = n + 1 + i1 := by omega
          rw [he]; exact hp1
        · have he : n + (i2 + 1) = n + 1 + i2 := by omega
          rw [he]; exact hp2

/-! ### Duplicate keys determine row length -/

lemma filter_ne3_length (n : Nat) :
    ((List.range n).filter (fun i => decide (i ≠ 3))).length =
      if n ≤ 3 then n else n - 1 := by
  induction n with
  | zero => simp
  | succ m ih =>
      rw [List.range_succ, List.filter_append, List.length_append, ih]
      have hone : (List.filter (fun i => decide (i ≠ 3)) [m]).length =
          if m = 3 then 0 else 1 := by
        by_cases hm : m = 3
        · subst hm
          simp
        · simp [hm]
      rw [hone]
      split_ifs <;> omega

lemma row_length_of_key_eq {r s : Row}
    (hkey : duplicate_key s = duplicate_key r) (hl : 7 ≤ r.length) :
    s.length = r.length := by
  have h1 := congrArg List.length hkey
  rw [duplicate_key, duplicate_key, List.length_map, List.length_map,
    filter_ne3_length, filter_ne3_length] at h1
  split_ifs at h1 <;> omega

lemma duplicate_key_eq_of_same {r1 r2 : Row} (h : sameExceptTranslation r1 r2) :
    duplicate_key r1 = duplicate_key r2 := by
  obtain ⟨hlen, hcols⟩ := h
  rw [duplicate_key, duplicate_key, hlen]
  apply List.map_congr_left
  intro j hj
  rw [List.mem_filter, List.mem_range] at hj
  exact hcols j (by omega) (by simpa using hj.2)

/-! ### No duplicate survives the rewrite -/

lemma keysNodup_rewriteFiles {fd : FileData} (hk : keysNodup fd) :
    keysNodup (rewriteFiles fd) := by
  rw [keysNodup, rewriteFiles, List.map_map]
  have he : (Prod.fst ∘ fun p : String × List Row =>
      (p.1, applyDeletionsDesc p.2 (indicesToDelete (deletionList fd) p.1))) =
      Prod.fst := funext fun p => rfl
  rw [he]
  exact hk

lemma rewritten_occurrence {fd : FileData} (hk : keysNodup fd) {g : String}
    {j : Nat} {s : Row} (h : (fileRows (rewriteFiles fd) g).get? j = some s) :
    ∃ i, (fileRows fd g).get? i = some s ∧ (g, i) ∉ deletionList fd := by
  rw [fileRows_rewrite_keepIdx hk, keepIdx] at h
  obtain ⟨i, hget, hp⟩ := keepIdxAux_get?_some _ _ 0 j s h
  rw [Nat.zero_add] at hp
  exact ⟨i, hget, of_decide_eq_true hp⟩

lemma rewritten_two_occurrences {fd : FileData} (hk : keysNodup fd) {g : String}
    {j1 j2 : Nat} {s1 s2 : Row} (hj : j1 < j2)
    (h1 : (fileRows (rewriteFiles fd) g).get? j1 = some s1)
    (h2 : (fileRows (rewriteFiles fd) g).get? j2 = some s2) :
    ∃ i1 i2, i1 < i2 ∧ (fileRows fd g).get? i1 = some s1 ∧
      (fileRows fd g).get? i2 = some s2 ∧
      (g, i1) ∉ deletionList fd ∧ (g, i2) ∉ deletionList fd := by
  rw [fileRows_rewrite_keepIdx hk, keepIdx] at h1 h2
  obtain ⟨i1, i2, hlt, hg1, hg2, hp1, hp2⟩ :=
    keepIdxAux_two_get? _ _ 0 j1 j2 s1 s2 hj h1 h2
  rw [Nat.zero_add] at hp1
  rw [Nat.zero_add] at hp2
  exact ⟨i1, i2, hlt, hg1, hg2, of_decide_eq_true hp1, of_decide_eq_true hp2⟩

/-- After one pass, rows of at least 7 columns with equal duplicate keys
occupy at most one position of the rewritten archive. -/
lemma no_two_surviving_dups {fd : FileData} (hk : keysNodup fd) :
    ∀ (g1 : String) (j1 : Nat) (s1 : Row) (g2 : String) (j2 : Nat) (s2 : Row),
      (fileRows (rewriteFiles fd) g1).get? j1 = some s1 →
      (fileRows (rewriteFiles fd) g2).get? j2 = some s2 →
      duplicate_key s1 = duplicate_key s2 →
      7 ≤ s1.length → 7 ≤ s2.length →
      (g1, j1) = (g2, j2) := by
  intro g1 j1 s1 g2 j2 s2 h1 h2 hkey hl1 hl2
  by_cases hg : g1 = g2
  · subst hg
    rcases Nat.lt_trichotomy j1 j2 with hj | hj | hj
    · exfalso
      obtain ⟨i1, i2, hlt, hg1, hg2, hs1, hs2⟩ :=
        rewritten_two_occurrences hk hj h1 h2
      rcases two_dups_one_deleted hk
          (show (g1, i1) ≠ (g1, i2) by simp; omega) hg1 hg2 hl1 hl2 hkey with hd | hd
      · exact hs1 hd
      · exact hs2 hd
    · rw [hj]
    · exfalso
      obtain ⟨i2, i1, hlt, hg2, hg1, hs2, hs1⟩ :=
        rewritten_two_occurrences hk hj h2 h1
      rcases two_dups_one_deleted hk
          (show (g1, i1) ≠ (g1, i2) by simp; omega) hg1 hg2 hl1 hl2 hkey with hd | hd
      · exact hs1 hd
      · exact hs2 hd
  · exfalso
    obtain ⟨i1, hg1, hs1⟩ := rewritten_occurrence hk h1
    obtain ⟨i2, hg2, hs2⟩ := rewritten_occurrence hk h2
    rcases two_dups_one_deleted hk
        (show (g1, i1) ≠ (g2, i2) by simp [hg]) hg1 hg2 hl1 hl2 hkey with hd | hd
    · exact hs1 hd
    · exact hs2 hd

instance (fd : FileData) : Decidable (keysNodup fd) := by
  unfold keysNodup
  infer_instance

lemma exists_two_distinct_of_nodup {α : Type} {l : List α} (hn : l.Nodup)
    (h : 1 < l.length) : ∃ a b, a ∈ l ∧ b ∈ l ∧ a ≠ b := by
  match l with
  | [] => simp at h
  | [x] => simp at h
  | x :: y :: t =>
      refine ⟨x, y, List.mem_cons_self _ _,
        List.mem_cons_of_mem _ (List.mem_cons_self _ _), ?_⟩
      intro he
      rw [List.nodup_cons] at hn
      exact hn.1 (he ▸ List.mem_cons_self _ _)

lemma allCandidates_nodup {fd : FileData} (hk : keysNodup fd) :
    (allCandidates fd).Nodup :=
  List.Nodup.of_map _ (allCandidates_posNodup hk)

/-- C1 counterexample: two rows of only four columns that agree, after
trimming, in every column but the translation column are both still
present, at their original positions, after the full
analyze/resolve/delete pass — short rows are never matched. -/
theorem C1_counterexample_short_rows :
    keysNodup [(("a" : String), [[("x" : String), "y", "z", "t1"], ["x", "y", "z", "t2"]])] ∧
    (fileRows [("a", [["x", "y", "z", "t1"], ["x", "y", "z", "t2"]])] "a").get? 0 =
      some ["x", "y", "z", "t1"] ∧
    (fileRows [("a", [["x", "y", "z", "t1"], ["x", "y", "z", "t2"]])] "a").get? 1 =
      some ["x", "y", "z", "t2"] ∧
    sameExceptTranslation ["x", "y", "z", "t1"] ["x", "y", "z", "t2"] ∧
    (["x", "y", "z", "t1"] : Row) ≠ ["x", "y", "z", "t2"] ∧
    deletionList [("a", [["x", "y", "z", "t1"], ["x", "y", "z", "t2"]])] = [] ∧
    (fileRows (rewriteFiles [("a", [["x", "y", "z", "t1"], ["x", "y", "z", "t2"]])]) "a").get? 0 =
      some ["x", "y", "z", "t1"] ∧
    (fileRows (rewriteFiles [("a", [["x", "y", "z", "t1"], ["x", "y", "z", "t2"]])]) "a").get? 1 =
      some ["x", "y", "z", "t2"] := by
  decide

/-- C1 (amended): for rows of at least 7 columns — the only rows entering
duplicate analysis — any two distinct positions holding rows whose trimmed
values agree in every column except the translation column cannot both
survive: one is marked for deletion, and in the rewritten archive at most
one position holds a row with that duplicate key. -/
theorem C1_amended_at_most_one_remains (fd : FileData) (hk : keysNodup fd)
    (f1 : String) (i1 : Nat) (r1 : Row) (f2 : String) (i2 : Nat) (r2 : Row)
    (hp : (f1, i1) ≠ (f2, i2))
    (h1 : (fileRows fd f1).get? i1 = some r1)
    (h2 : (fileRows fd f2).get? i2 = some r2)
    (hl1 : 7 ≤ r1.length) (hl2 : 7 ≤ r2.length)
    (hsame : sameExceptTranslation r1 r2) :
    ((f1, i1) ∈ deletionList fd ∨ (f2, i2) ∈ deletionList fd) ∧
    (∀ (g1 : String) (j1 : Nat) (s1 : Row) (g2 : String) (j2 : Nat) (s2 : Row),
      (fileRows (rewriteFiles fd) g1).get? j1 = some s1 →
      (fileRows (rewriteFiles fd) g2).get? j2 = some s2 →
      duplicate_key s1 = duplicate_key r1 →
      duplicate_key s2 = duplicate_key r1 →
      (g1, j1) = (g2, j2)) := by
  have hkey := duplicate_key_eq_of_same hsame
  refine ⟨two_dups_one_deleted hk hp h1 h2 hl1 hl2 hkey, ?_⟩
  intro g1 j1 s1 g2 j2 s2 hh1 hh2 hk1 hk2
  have hls1 : s1.length = r1.length := row_length_of_key_eq hk1 hl1
  have hls2 : s2.length = r1.length := row_length_of_key_eq hk2 hl1
  exact no_two_surviving_dups hk g1 j1 s1 g2 j2 s2 hh1 hh2
    (hk1.trans hk2.symm) (by omega) (by omega)

/-- C5: the pass is idempotent — on the rewritten archive no duplicate
group of size above 1 remains, so a second analyze/resolve pass produces
an empty deletion set (and an empty mismatch log). -/
theorem C5_second_pass_deletes_nothing (fd : FileData) (hk : keysNodup fd) :
    (∀ k, (groupOf (rewriteFiles fd) k).length ≤ 1) ∧
    deletionList (rewriteFiles fd) = [] ∧
    process_all_duplicates (rewriteFiles fd) = ([], []) := by
  have hk' := keysNodup_rewriteFiles hk
  have hgrp : ∀ k, (groupOf (rewriteFiles fd) k).length ≤ 1 := by
    intro k
    by_contra hlen
    push_neg at hlen
    have hnd : (groupOf (rewriteFiles fd) k).Nodup :=
      (allCandidates_nodup hk').filter _
    obtain ⟨c1, c2, hm1, hm2, hne⟩ := exists_two_distinct_of_nodup hnd hlen
    have hs1 := candidate_shape hk' (mem_groupOf.mp hm1).1
    have hs2 := candidate_shape hk' (mem_groupOf.mp hm2).1
    have hkeq : duplicate_key c1.row = duplicate_key c2.row := by
      rw [(mem_groupOf.mp hm1).2, (mem_groupOf.mp hm2).2]
    have hpos := no_two_surviving_dups hk c1.file c1.row_index c1.row
      c2.file c2.row_index c2.row hs1.1 hs2.1 hkeq hs1.2.1 hs2.2.1
    have hfe : c1.file = c2.file := congrArg Prod.fst hpos
    have hie : c1.row_index = c2.row_index := congrArg Prod.snd hpos
    exact hne (candidate_eq_of_pos hk' (mem_groupOf.mp hm1).1
      (mem_groupOf.mp hm2).1 hfe hie)
  have hdel : deletionList (rewriteFiles fd) = [] := by
    rw [deletionList]
    apply List.flatten_eq_nil_iff.mpr
    intro l hl
    rw [List.mem_map] at hl
    obtain ⟨k, _, rfl⟩ := hl
    rw [if_neg (by have := hgrp k; omega)]
  have hmis : mismatchLog (rewriteFiles fd) = [] := by
    rw [mismatchLog]
    apply List.flatten_eq_nil_iff.mpr
    intro l hl
    rw [List.mem_map] at hl
    obtain ⟨k, _, rfl⟩ := hl
    rw [if_neg (by have := hgrp k; omega)]
  exact ⟨hgrp, hdel, by rw [process_all_duplicates, hdel, hmis]⟩

/-- C8: a row with fewer than 7 columns is excluded from duplicate
analysis — it belongs to no duplicate group, is never marked for deletion,
and is still present, unchanged and in order, in the rewritten file. -/
theorem C8_short_rows_left_untouched (fd : FileData) (hk : keysNodup fd)
    (f : String) (i : Nat) (r : Row) (hr : (fileRows fd f).get? i = some r)
    (hlen : r.length < 7) :
    (∀ k c, c ∈ groupOf fd k → ¬(c.file = f ∧ c.row_index = i)) ∧
    (f, i) ∉ deletionList fd ∧
    (∃ j, j ≤ i ∧ (fileRows (rewriteFiles fd) f).get? j = some r) := by
  have hnotc : ∀ k c, c ∈ groupOf fd k → ¬(c.file = f ∧ c.row_index = i) := by
    rintro k c hc ⟨hcf, hci⟩
    have hs := candidate_shape hk (mem_groupOf.mp hc).1
    have h1 := hs.1
    rw [hcf, hci, hr] at h1
    have hrc : r = c.row := by injection h1
    have h7 := hs.2.1
    rw [← hrc] at h7
    omega
  have hnotdel : (f, i) ∉ deletionList fd := by
    intro hdel
    obtain ⟨c, k, hcg, hcf, hci, _, _, _⟩ := deletion_source hdel
    exact hnotc k c hcg ⟨hcf, hci⟩
  refine ⟨hnotc, hnotdel, ?_⟩
  rw [fileRows_rewrite_keepIdx hk, keepIdx]
  obtain ⟨j, hj, hget⟩ :=
    keepIdxAux_get?_of_kept (fun j => decide ((f, j) ∉ deletionList fd))
      (fileRows fd f) 0 i r hr (by rw [Nat.zero_add]; exact decide_eq_true hnotdel)
  exact ⟨j, hj, hget⟩

/-! ### Concrete archives used to instantiate the theorems -/

def exRow1 : Row := ["x", "y", "z", "T", "e", "f", "g"]

def exRow2 : Row := ["x", "y", "z", "", "e", "f", "g"]

def exRowU : Row := ["x", "y", "z", "U", "e", "f", "g"]

def exArchive : FileData := [("a", [exRow1, exRow2])]

def exShortArchive : FileData := [("a", [exRow1, ["p", "q"], exRow2])]

def exCand1 : Candidate := mkCandidate "a" 0 exRow1

def exCand2 : Candidate := mkCandidate "a" 1 exRow2

def exCandU : Candidate := mkCandidate "a" 1 exRowU

theorem C1_amended_witness :
    keysNodup exArchive ∧
    (("a", (0 : Nat)) ≠ ("a", (1 : Nat))) ∧
    (fileRows exArchive "a").get? 0 = some exRow1 ∧
    (fileRows exArchive "a").get? 1 = some exRow2 ∧
    7 ≤ exRow1.length ∧ 7 ≤ exRow2.length ∧
    sameExceptTranslation exRow1 exRow2 ∧
    ((("a", 0) ∈ deletionList exArchive ∨ ("a", 1) ∈ deletionList exArchive) ∧
     (∀ (g1 : String) (j1 : Nat) (s1 : Row) (g2 : String) (j2 : Nat) (s2 : Row),
        (fileRows (rewriteFiles exArchive) g1).get? j1 = some s1 →
        (fileRows (rewriteFiles exArchive) g2).get? j2 = some s2 →
        duplicate_key s1 = duplicate_key exRow1 →
        duplicate_key s2 = duplicate_key exRow1 →
        (g1, j1) = (g2, j2))) :=
  ⟨by decide, by decide, by decide, by decide, by decide, by decide, by decide,
   C1_amended_at_most_one_remains exArchive (by decide) "a" 0 exRow1 "a" 1 exRow2
     (by decide) (by decide) (by decide) (by decide) (by decide) (by decide)⟩

theorem C2_witness :
    exCand1 ∈ [exCand1, exCand2] ∧ exCand1.col4 ≠ "" ∧
    (∀ c' ∈ [exCand1, exCand2], c' ≠ exCand1 → c'.col4 = "") ∧
    ((resolve_group [exCand1, exCand2] []).1 = some exCand1 ∧
     (resolve_group [exCand1, exCand2] []).2.1 =
       (([exCand1, exCand2]).filter (fun c' => decide (¬ c' = exCand1))).map
         (fun c' => (c'.file, c'.row_index))) :=
  ⟨by decide, by decide, by decide,
   C2_unique_nonempty_translation_wins [] [exCand1, exCand2] exCand1
     (by decide) (by decide) (by decide)⟩

theorem C4_witness :
    exCand1 ∈ [exCand1, exCandU] ∧ exCandU ∈ [exCand1, exCandU] ∧
    exCand1.col4 ≠ "" ∧ exCandU.col4 ≠ "" ∧ exCand1.col4 ≠ exCandU.col4 ∧
    ((resolve_group [exCand1, exCandU] []).2.2 =
      [(nonEmptyOf [exCand1, exCandU]).map
        (fun c => (c.file, c.row_index + 1, c.col4))] ∧
     (∃ b, (resolve_group [exCand1, exCandU] []).1 = some b ∧
       b ∈ survivors [exCand1, exCandU] ∧
       (∀ c, c ∈ survivors [exCand1, exCandU] →
         candScore [] c ≤ candScore [] b) ∧
       (∀ c, c ∈ survivors [exCand1, exCandU] →
         candScore [] c = candScore [] b → b.row_index ≤ c.row_index))) :=
  ⟨by decide, by decide, by decide, by decide, by decide,
   C4_conflict_logged_and_resolution_continues [] [exCand1, exCandU]
     exCand1 exCandU (by decide) (by decide) (by decide) (by decide) (by decide)⟩

theorem C5_witness :
    keysNodup exArchive ∧
    ((∀ k, (groupOf (rewriteFiles exArchive) k).length ≤ 1) ∧
     deletionList (rewriteFiles exArchive) = [] ∧
     process_all_duplicates (rewriteFiles exArchive) = ([], [])) :=
  ⟨by decide, C5_second_pass_deletes_nothing exArchive (by decide)⟩

theorem C8_witness :
    keysNodup exShortArchive ∧
    (fileRows exShortArchive "a").get? 1 = some ["p", "q"] ∧
    (["p", "q"] : Row).length < 7 ∧
    ((∀ k c, c ∈ groupOf exShortArchive k →
        ¬(c.file = "a" ∧ c.row_index = 1)) ∧
     ("a", 1) ∉ deletionList exShortArchive ∧
     (∃ j, j ≤ 1 ∧ (fileRows (rewriteFiles exShortArchive) "a").get? j =
        some ["p", "q"])) :=
  ⟨by decide, by decide, by decide,
   C8_short_rows_left_untouched exShortArchive (by decide) "a" 1 ["p", "q"]
     (by decide) (by decide)⟩

theorem C9_witness :
    keysNodup exArchive ∧
    ((∀ g : List Candidate, g ≠ [] →
        ∃ b, (resolve_group g exArchive).1 = some b ∧ b ∈ g) ∧
     (∀ f i r, (fileRows exArchive f).get? i = some r →
        (f, i) ∈ deletionList exArchive →
        ∃ f' i' r', (f', i') ≠ (f, i) ∧
          (fileRows exArchive f').get? i' = some r' ∧
          duplicate_key r' = duplicate_key r ∧
          (f', i') ∉ deletionList exArchive) ∧
     (∀ f i r, (fileRows exArchive f).get? i = some r → 7 ≤ r.length →
        (∀ f' i' r', (fileRows exArchive f').get? i' = some r' →
          duplicate_key r' = duplicate_key r → (f', i') = (f, i)) →
        (f, i) ∉ deletionList exArchive)) :=
  ⟨by decide, C9_resolution_always_keeps_one exArchive (by decide)⟩

end DupRemover

namespace TagFixer

/-- One line of a cell's text, as a character list. -/
abbrev Line := List Char

/-- The reference token list `TOKENS` of `Tag Fixer.py`. -/
def TOKENS : List Line :=
  ["<AREA".toList, "<COL".toList, "<HAVE".toList, "<ICON".toList,
   "<ITEM".toList, "<KC".toList, "<KCP".toList, "<KCT".toList,
   "<KCTP".toList, "<NAME".toList, "<NPC".toList, "<QCND".toList,
   "<QDEL".toList, "<QDEL NAME".toList, "<SPAI".toList, "<SPOT".toList,
   "<SQDI".toList, "<STG".toList, "<UNIT".toList, "<UNTN".toList,
   "<VAL".toList]

/-- Python `str.splitlines()` on newline-separated text: segments between
line breaks, with no trailing empty segment for text ending in a break
(`"".splitlines() == []`, `"a\n".splitlines() == ["a"]`). -/
def splitlines : List Char → List Line
  | [] => []
  | c :: cs =>
      if c = '\n' then [] :: splitlines cs
      else
        match splitlines cs with
        | [] => [[c]]
        | l :: ls => (c :: l) :: ls

/-- `"\n".join(lines)`. -/
def joinLines (ls : List Line) : List Char := List.intercalate ['\n'] ls

/-- `ends_with_token(line, tokens)`: the first token that the rstripped
line ends with, else `None`. -/
def ends_with_token (line : Line) (tokens : List Line) : Option Line :=
  tokens.find? (fun t => t.isSuffixOf (rstripChars line))

/-- The blank-skipping inner loop: the first index `≥ j` holding a
non-blank line, or the length if none exists. -/
def findNonBlank (lines : List Line) (j : Nat) : Nat :=
  j + (((lines.drop j).findIdx? (fun l => !(stripChars l == []))).getD
    (lines.drop j).length)

/-- `re.match(r'^\s*(\S+?>)', candidate_line)`: skip leading whitespace,
then take the shortest run of at least two non-whitespace characters
ending at a '>' — returning the captured fragment (which includes the
'>') and the match end offset, or `None`. -/
def fragMatch (candidate : Line) : Option (Line × Nat) :=
  let ws := candidate.takeWhile Char.isWhitespace
  let rest := candidate.drop ws.length
  let run := rest.takeWhile (fun c => !c.isWhitespace)
  match (run.drop 1).findIdx? (fun c => c == '>') with
  | some q => some (run.take (q + 2), ws.length + q + 2)
  | none => none

/-- The `while i < len(lines)` loop of `fix_broken_tags`.  The fuel
argument only bounds the number of iterations; since each iteration
increments `i` and never lengthens `lines`, `lines.length` iterations
always suffice, so with that fuel the function equals the Python loop. -/
def fixLoopFuel : Nat → List Line → Nat → Bool → List Line × Bool
  | 0, lines, _, modified => (lines, modified)
  | fuel + 1, lines, i, modified =>
      if i < lines.length then
        match ends_with_token (lines.getD i []) TOKENS with
        | some _ =>
            let j := findNonBlank lines (i + 1)
            if j < lines.length then
              match fragMatch (lines.getD j []) with
              | some fm =>
                  let newLine := rstripChars (lines.getD i []) ++ [' '] ++ fm.1
                  if newLine ≠ lines.getD i [] then
                    let lines1 := lines.set i newLine
                    let remainder := (lines.getD j []).drop fm.2
                    let lines2 :=
                      if stripChars remainder = [] then lines1.eraseIdx j
                      else lines1.set j remainder
                    fixLoopFuel fuel lines2 (i + 1) true
                  else fixLoopFuel fuel lines (i + 1) modified
              | none => fixLoopFuel fuel lines (i + 1) modified
            else fixLoopFuel fuel lines (i + 1) modified
        | none => fixLoopFuel fuel lines (i + 1) modified
      else (lines, modified)

/-- `fix_broken_tags(text)`: scan the split lines once, reassembling
broken tags, and return the rejoined text with the changed flag. -/
def fix_broken_tags (text : List Char) : List Char × Bool :=
  let lines := splitlines text
  let r := fixLoopFuel lines.length lines 0 false
  (joinLines r.1, r.2)

/-! ### The loop is the identity when no line triggers a fix -/

/-- Line `i` triggers a fix: it ends with a token, a later non-blank line
exists, and that line carries a fragment. -/
def triggersAt (lines : List Line) (i : Nat) : Prop :=
  (ends_with_token (lines.getD i []) TOKENS).isSome = true ∧
  findNonBlank lines (i + 1) < lines.length ∧
  (fragMatch (lines.getD (findNonBlank lines (i + 1)) [])).isSome = true

lemma fixLoopFuel_no_trigger :
    ∀ (fuel : Nat) (lines : List Line) (i : Nat) (m : Bool),
      (∀ k, i ≤ k → k < lines.length → ¬ triggersAt lines k) →
      fixLoopFuel fuel lines i m = (lines, m) := by
  intro fuel
  induction fuel with
  | zero => intro lines i m _; rfl
  | succ fuel ih =>
      intro lines i m h
      simp only [fixLoopFuel]
      by_cases hi : i < lines.length
      · rw [if_pos hi]
        cases htok : ends_with_token (lines.getD i []) TOKENS with
        | none =>
            exact ih lines (i + 1) m (fun k hk1 hk2 => h k (by omega) hk2)
        | some t =>
            by_cases hj : findNonBlank lines (i + 1) < lines.length
            · rw [if_pos hj]
              cases hfrag : fragMatch (lines.getD (findNonBlank lines (i + 1)) []) with
              | none =>
                  exact ih lines (i + 1) m (fun k hk1 hk2 => h k (by omega) hk2)
              | some fm =>
                  exact absurd ⟨by rw [htok]; rfl, hj, by rw [hfrag]; rfl⟩
                    (h i le_rfl hi)
            · rw [if_neg hj]
              exact ih lines (i + 1) m (fun k hk1 hk2 => h k (by omega) hk2)
      · rw [if_neg hi]

lemma fix_broken_tags_eq (text : List Char) :
    fix_broken_tags text =
      (joinLines (fixLoopFuel (splitlines text).length (splitlines text) 0 false).1,
       (fixLoopFuel (splitlines text).length (splitlines text) 0 false).2) := rfl

/-- C6 counterexample: on `"Equip the <ITEM\n\nname123>"` the function
does not return the claimed single-line text — the skipped blank line is
kept, leaving a trailing line break. -/
theorem C6_counterexample_output_not_single_line :
    (fix_broken_tags ("Equip the <ITEM\n\nname123>".toList)).1 ≠
      "Equip the <ITEM name123>".toList := by
  decide

/-- C6 (amended): the candidate line is merged into the token line and
deleted (its remainder being empty), the changed flag is true, but the
blank line between the halves is retained, so the result is
`"Equip the <ITEM name123>\n"`. -/
theorem C6_amended_blank_line_retained :
    fix_broken_tags ("Equip the <ITEM\n\nname123>".toList) =
      ("Equip the <ITEM name123>\n".toList, true) := by
  decide

/-- C7 counterexample: an input in which no line ends with a reference
token whose returned text nevertheless differs from the input — joining
the split lines drops the trailing line break. -/
theorem C7_counterexample_trailing_newline :
    (∀ line ∈ splitlines ("hello\n".toList), ends_with_token line TOKENS = none) ∧
    (fix_broken_tags ("hello\n".toList)).2 = false ∧
    (fix_broken_tags ("hello\n".toList)).1 ≠ "hello\n".toList := by
  refine ⟨by decide, by decide, by decide⟩

/-- C7 (amended): when no line ends with a reference token the function
changes nothing — it returns the newline-join of the split lines with the
changed flag false; in particular the text itself whenever the input
equals that join (i.e. carries no trailing line break). -/
theorem C7_amended_no_token_returns_join (text : List Char)
    (h : ∀ line ∈ splitlines text, ends_with_token line TOKENS = none) :
    fix_broken_tags text = (joinLines (splitlines text), false) ∧
    (text = joinLines (splitlines text) → (fix_broken_tags text).1 = text) := by
  have hmain : fixLoopFuel (splitlines text).length (splitlines text) 0 false =
      (splitlines text, false) := by
    apply fixLoopFuel_no_trigger
    intro k _ hk2 htr
    have hmem : (splitlines text).getD k [] ∈ splitlines text := by
      rw [List.getD_eq_getElem?_getD, List.getElem?_eq_getElem hk2]
      exact List.getElem_mem hk2
    obtain ⟨htok, _, _⟩ := htr
    rw [h _ hmem] at htok
    exact absurd htok (by simp)
  constructor
  · rw [fix_broken_tags_eq, hmain]
  · intro he
    rw [fix_broken_tags_eq, hmain, ← he]

/-- C10: a token line with no later non-blank line, or whose next
non-blank line carries no fragment ending in '>', is left alone; the scan
never reads past the end of the line list (the model is total by
construction), and when no line of the text triggers a fix the function
returns the joined lines with the changed flag false. -/
theorem C10_no_fragment_no_modification (text : List Char)
    (h : ∀ i, i < (splitlines text).length →
      (ends_with_token ((splitlines text).getD i []) TOKENS).isSome = true →
      ((splitlines text).length ≤ findNonBlank (splitlines text) (i + 1) ∨
        fragMatch ((splitlines text).getD
          (findNonBlank (splitlines text) (i + 1)) []) = none)) :
    fix_broken_tags text = (joinLines (splitlines text), false) := by
  have hmain : fixLoopFuel (splitlines text).length (splitlines text) 0 false =
      (splitlines text, false) := by
    apply fixLoopFuel_no_trigger
    intro k _ hk2 htr
    obtain ⟨htok, hj, hfrag⟩ := htr
    rcases h k hk2 htok with hlen | hnone
    · omega
    · rw [hnone] at hfrag
      exact absurd hfrag (by simp)
  rw [fix_broken_tags_eq, hmain]

theorem C7_amended_witness :
    (∀ line ∈ splitlines ("hello".toList),
      ends_with_token line TOKENS = none) ∧
    (fix_broken_tags ("hello".toList) =
      (joinLines (splitlines ("hello".toList)), false) ∧
     ("hello".toList = joinLines (splitlines ("hello".toList)) →
      (fix_broken_tags ("hello".toList)).1 = "hello".toList)) :=
  ⟨by decide, C7_amended_no_token_returns_join ("hello".toList) (by decide)⟩

theorem C10_witness :
    (∀ i, i < (splitlines ("Pick <ITEM\n\n".toList)).length →
      (ends_with_token ((splitlines ("Pick <ITEM\n\n".toList)).getD i [])
        TOKENS).isSome = true →
      ((splitlines ("Pick <ITEM\n\n".toList)).length ≤
          findNonBlank (splitlines ("Pick <ITEM\n\n".toList)) (i + 1) ∨
        fragMatch ((splitlines ("Pick <ITEM\n\n".toList)).getD
          (findNonBlank (splitlines ("Pick <ITEM\n\n".toList)) (i + 1)) []) =
          none)) ∧
    fix_broken_tags ("Pick <ITEM\n\n".toList) =
      (joinLines (splitlines ("Pick <ITEM\n\n".toList)), false) :=
  ⟨by decide,
   C10_no_fragment_no_modification ("Pick <ITEM\n\n".toList) (by decide)⟩

end TagFixer
